import Mathlib

/-!
Shallow embedding of the `bin_data` binary-format codec library.

Byte streams are modelled as `List Nat` (each element a byte value `< 256`);
readers are state-passing functions returning the remaining stream together
with an `Except` outcome, mirroring `&mut R` receivers in the source; writers
accumulate into a `List Nat` sink, mirroring `Vec<u8>` sinks (whose `write_all`
never fails).  Sources embedded: `bin_data/src/stream.rs`,
`bin_data/src/data.rs`, `bin_data/src/context.rs`, and the code generator
`bin_data_macros/src/lib.rs` together with `bin_data_macros/src/code_gen.rs`.
The repository contains superseded design iterations (`src/src/*.rs` and the
undeclared module `bin_data/src/named_args.rs`); the embedding follows the
final iteration, the modules declared by `bin_data/src/lib.rs`.
-/

namespace BinData

/-- Endianness for integers and floating-point numbers (`context.rs`, `enum Endian`). -/
inductive Endian
  | little
  | big
deriving DecidableEq

/-- Decoding errors (`stream.rs`, `enum DecodeError`).  The `std::io::Error`
payload of `IncompleteData` is not representable and is dropped; `Box<str>` and
`Box<[u8]>` payloads are byte lists (a Rust `str` is its UTF-8 bytes). -/
inductive DecodeError
  | incompleteData (ctx : String)
  | invalidData (ctx : String)
  | magicMismatch (realBytes expectedMagic : List Nat)
  | decodeUtf8Error (validPart invalidBytes : List Nat)
  | superfluousBytes (bytes : List Nat)
deriving DecidableEq

/-- Encoding errors (`stream.rs`, `enum EncodeError`).  The `Io` payload is not
representable; with a `Vec<u8>` sink it never occurs. -/
inductive EncodeError
  | invalidArgument (ctx msg : String)
  | invalidData (ctx : String)
  | ioError
deriving DecidableEq

/-- Model of `Read::read_exact` for `&[u8]` sources: succeed returning the
first `n` bytes and the rest when at least `n` bytes remain, otherwise fail
(consuming nothing, as the `&[u8]` impl does). -/
def readExact (src : List Nat) (n : Nat) : Option (List Nat × List Nat) :=
  if n ≤ src.length then some (src.take n, src.drop n) else none

/-- Stream op `magic` in the read direction (`stream.rs`,
`impl Stream<dir::Read> for R`): read `expected.length` bytes into a buffer,
then compare with the expected magic. -/
def magicRead (expected : List Nat) (src : List Nat) :
    List Nat × Except DecodeError Unit :=
  match readExact src expected.length with
  | none => (src, .error (.incompleteData "magic"))
  | some (actual, rest) =>
    if expected = actual then (rest, .ok ())
    else (rest, .error (.magicMismatch actual expected))

/-- Stream op `pad` in the read direction (`stream.rs`): read and discard `n`
bytes. -/
def padRead (n : Nat) (src : List Nat) : List Nat × Except DecodeError Unit :=
  match readExact src n with
  | none => (src, .error (.incompleteData "padding"))
  | some (_, rest) => (rest, .ok ())

/-- Stream op `magic` in the write direction (`stream.rs`,
`impl Stream<dir::Write> for W`): emit the magic bytes verbatim. -/
def magicWrite (magic : List Nat) (sink : List Nat) :
    List Nat × Except EncodeError Unit :=
  (sink ++ magic, .ok ())

/-- Stream op `pad` in the write direction (`stream.rs`): emit `n` zero bytes. -/
def padWrite (n : Nat) (sink : List Nat) : List Nat × Except EncodeError Unit :=
  (sink ++ List.replicate n 0, .ok ())

/-! Plain data: fixed-width numerics (`data.rs`, `impl_primitive_plain_data`).
A value of a `w`-byte numeric type is modelled by its bit pattern, a natural
number `< 256^w`; `to_le_bytes` is radix-256 little-endian serialisation. -/

/-- Little-endian byte serialisation of a `w`-byte value (Rust `to_le_bytes`). -/
def leBytes : Nat → Nat → List Nat
  | 0, _ => []
  | w + 1, v => v % 256 :: leBytes w (v / 256)

/-- Little-endian byte deserialisation (Rust `from_le_bytes`). -/
def fromLeBytes : List Nat → Nat
  | [] => 0
  | b :: bs => b + 256 * fromLeBytes bs

/-- `PlainData::to_bytes` (`data.rs`): big-endian is the byte-reverse of
little-endian, as with Rust `to_be_bytes`. -/
def toBytes (w : Nat) (v : Nat) : Endian → List Nat
  | .little => leBytes w v
  | .big => (leBytes w v).reverse

/-- `PlainData::from_bytes` (`data.rs`). -/
def fromBytes (bytes : List Nat) : Endian → Nat
  | .little => fromLeBytes bytes
  | .big => fromLeBytes bytes.reverse

/-- `plain_data_decode_with` (`data.rs`): read exactly `w` bytes, reinterpret
with the given endianness; `tname` is the `std::any::type_name` context tag. -/
def plainDecodeWith (w : Nat) (tname : String) (endian : Endian)
    (src : List Nat) : List Nat × Except DecodeError Nat :=
  match readExact src w with
  | none => (src, .error (.incompleteData tname))
  | some (bytes, rest) => (rest, .ok (fromBytes bytes endian))

/-- `plain_data_encode_with` (`data.rs`): write the `w` raw bytes of `v` in the
given byte order. -/
def plainEncodeWith (w : Nat) (v : Nat) (endian : Endian)
    (sink : List Nat) : List Nat × Except EncodeError Unit :=
  (sink ++ toBytes w v endian, .ok ())

/-! Container codecs (`data.rs`). An element codec is passed as a function,
standing for the `T: Encode<Args::Item>` / `T: Decode<Args::Item>` instance
with the element endianness already applied; the per-element argument stream
`args.element_args` is a list. -/

/-- `encode_iter` (`data.rs`, lines 54-64): for each element, first pull the
next per-element argument — failing with `InvalidArgument(type_name, "not
enough arguments")` when the argument iterator is exhausted — then encode the
element; stop at the first failure (`try_for_each`). -/
def encodeIter {α β : Type} (typeName : String)
    (encElem : α → β → List Nat → List Nat × Except EncodeError Unit) :
    List α → List β → List Nat → List Nat × Except EncodeError Unit
  | [], _, sink => (sink, .ok ())
  | _ :: _, [], sink =>
    (sink, .error (.invalidArgument typeName "not enough arguments"))
  | x :: xs, a :: argsRest, sink =>
    match encElem x a sink with
    | (sink1, .ok ()) => encodeIter typeName encElem xs argsRest sink1
    | (sink1, .error e) => (sink1, .error e)

/-- `impl Encode<VecArgs<Args>> for [T]` (`data.rs`, lines 387-392): delegate
to `encode_iter` with type tag "Vec"; `Vec<T>` dereferences to this impl. -/
def vecEncodeWith {α β : Type}
    (encElem : α → β → List Nat → List Nat × Except EncodeError Unit)
    (elems : List α) (elementArgs : List β) (sink : List Nat) :
    List Nat × Except EncodeError Unit :=
  encodeIter "Vec" encElem elems elementArgs sink

/-- Encoding a sequence whose argument builder was left at its write-direction
default `Provided(iter::repeat(()))` (`context.rs`, `VecArgsBuilder::new`):
the infinite iterator yields `()` on each of the `elems.length` pulls the
encode performs, which is the trace of the finite list
`List.replicate elems.length ()`. -/
def vecEncodeRepeat {α : Type}
    (encElem : α → Unit → List Nat → List Nat × Except EncodeError Unit)
    (elems : List α) (sink : List Nat) : List Nat × Except EncodeError Unit :=
  vecEncodeWith encElem elems (List.replicate elems.length ()) sink

/-- `impl Decode<VecArgs<Args>> for Vec<T>` (`data.rs`, lines 361-366):
`args.element_args.map(|arg| T::decode_with(s, endian, arg)).collect()` — one
argument pulled per element, elements decoded left to right, collected in
order into `Result<Vec<T>, DecodeError>`; collection stops at the first
element failure and returns that failure. -/
def vecDecodeWith {α β : Type}
    (decElem : β → List Nat → List Nat × Except DecodeError α) :
    List β → List Nat → List Nat × Except DecodeError (List α)
  | [], src => (src, .ok [])
  | a :: argsRest, src =>
    match decElem a src with
    | (src1, .ok x) =>
      match vecDecodeWith decElem argsRest src1 with
      | (src2, .ok xs) => (src2, .ok (x :: xs))
      | (src2, .error e) => (src2, .error e)
    | (src1, .error e) => (src1, .error e)

/-! Text codec (`data.rs`, `impl Decode<StrArgs> for String`, and the error
conversion `From<FromUtf8Error> for DecodeError` in `stream.rs`).  The UTF-8
validator below models `core::str::run_utf8_validation`, the routine behind
`String::from_utf8`, branch for branch (byte-class table, per-sequence
continuation-range checks, `valid_up_to`, and `error_len` reported as in
`Utf8Error`). -/

/-- Outcome of UTF-8 validation: `ok`, or invalid with `valid_up_to` and
`error_len` as in `core::str::Utf8Error` (`errorLen = none` when the input
ended inside an incomplete sequence). -/
inductive Utf8Out
  | ok
  | err (validUpTo : Nat) (errorLen : Option Nat)
deriving DecidableEq

/-- Classify one UTF-8 sequence starting at first byte `b`, with the up to
three following bytes passed as `c1 c2 c3` (`none` = end of input).  Returns
the sequence length on success, or `error_len` on failure, following the
byte-width table and range checks of `core::str::run_utf8_validation`. -/
def checkSeq (b : Nat) (c1 c2 c3 : Option Nat) : Except (Option Nat) Nat :=
  if b < 0x80 then .ok 1
  else if b < 0xC2 then .error (some 1)
  else if b < 0xE0 then
    match c1 with
    | none => .error none
    | some c => if 0x80 ≤ c ∧ c < 0xC0 then .ok 2 else .error (some 1)
  else if b < 0xF0 then
    match c1 with
    | none => .error none
    | some c =>
      if (b = 0xE0 ∧ 0xA0 ≤ c ∧ c < 0xC0) ∨
         (0xE1 ≤ b ∧ b ≤ 0xEC ∧ 0x80 ≤ c ∧ c < 0xC0) ∨
         (b = 0xED ∧ 0x80 ≤ c ∧ c < 0xA0) ∨
         (0xEE ≤ b ∧ 0x80 ≤ c ∧ c < 0xC0) then
        match c2 with
        | none => .error none
        | some d => if 0x80 ≤ d ∧ d < 0xC0 then .ok 3 else .error (some 2)
      else .error (some 1)
  else if b < 0xF5 then
    match c1 with
    | none => .error none
    | some c =>
      if (b = 0xF0 ∧ 0x90 ≤ c ∧ c < 0xC0) ∨
         (0xF1 ≤ b ∧ b ≤ 0xF3 ∧ 0x80 ≤ c ∧ c < 0xC0) ∨
         (b = 0xF4 ∧ 0x80 ≤ c ∧ c < 0x90) then
        match c2 with
        | none => .error none
        | some d =>
          if 0x80 ≤ d ∧ d < 0xC0 then
            match c3 with
            | none => .error none
            | some e => if 0x80 ≤ e ∧ e < 0xC0 then .ok 4 else .error (some 3)
          else .error (some 2)
      else .error (some 1)
  else .error (some 1)

/-- The validation loop of `core::str::run_utf8_validation`: consume one
sequence at a time; on failure report the byte index `i` where the failing
sequence starts (`valid_up_to`). -/
def utf8Validate : List Nat → Nat → Utf8Out
  | [], _ => .ok
  | b :: rest, i =>
    match checkSeq b rest[0]? rest[1]? rest[2]? with
    | .error el => .err i el
    | .ok n => utf8Validate (rest.drop (n - 1)) (i + n)
termination_by l _ => l.length
decreasing_by
  simp only [List.length_cons, List.length_drop]
  omega

/-- `From<FromUtf8Error> for DecodeError` (`stream.rs`, lines 110-121): the
valid prefix `buffer[..valid_up_to]` and the invalid span
`buffer[valid_up_to..valid_up_to + error_len.unwrap_or(0)]` are carried as the
two separate components of `DecodeUtf8Error`. -/
def utf8ErrorToDecodeError (buffer : List Nat) (validUpTo : Nat)
    (errorLen : Option Nat) : DecodeError :=
  .decodeUtf8Error (buffer.take validUpTo)
    ((buffer.take (validUpTo + errorLen.getD 0)).drop validUpTo)

/-- `impl Decode<StrArgs> for String` (`data.rs`, lines 413-420): read exactly
`count` bytes, then run `String::from_utf8`; a validation failure is converted
through `From<FromUtf8Error>`.  A successfully decoded `String` is modelled by
its UTF-8 bytes. -/
def stringDecodeWith (count : Nat) (src : List Nat) :
    List Nat × Except DecodeError (List Nat) :=
  match readExact src count with
  | none => (src, .error (.incompleteData "String"))
  | some (buffer, rest) =>
    match utf8Validate buffer 0 with
    | .ok => (rest, .ok buffer)
    | .err v el => (rest, .error (utf8ErrorToDecodeError buffer v el))

/-- `impl Encode for String` (`data.rs`): write the raw bytes, no length
prefix. -/
def stringEncodeWith (s : List Nat) (sink : List Nat) :
    List Nat × Except EncodeError Unit :=
  (sink ++ s, .ok ())

/-! Argument builders (`context.rs`).  The Rust builders are type-state
machines: `VecArgsBuilder<Args>` and `StrArgsBuilder<N>` instantiated at
`Required` or `Provided<..>`; `ArgsBuilderFinished` (the `finish` operation) is
implemented only at the `Provided` instantiations.  The two type-states are
modelled as constructors of one inductive, and `finish` as the partial
function that returns `some` exactly on the states carrying a
`ArgsBuilderFinished` impl, `none` on the states carrying none. -/

/-- State of `VecArgsBuilder<Args>`: `Args = Required` or `Args = Provided<β>`
with payload the element-argument stream. -/
inductive VecBuilder (β : Type)
  | required
  | provided (elementArgs : β)
deriving DecidableEq

/-- `VecArgsBuilder::count` (`context.rs`), available only on the `Required`
state (which carries no data): provide `iter::repeat(()).take(n)`, one unit
argument per expected element. -/
def vecCount (n : Nat) : VecBuilder (List Unit) :=
  .provided (List.replicate n ())

/-- `VecArgsBuilder::args` (`context.rs`), available on every state: provide
an explicit per-element argument sequence. -/
def vecArgsSet {β γ : Type} (_b : VecBuilder β) (newArgs : List γ) :
    VecBuilder (List γ) :=
  .provided newArgs

/-- `VecArgsBuilder::arg` (`context.rs`), available only on `Provided` states
with unit items (the payload is passed directly): broadcast one cloned value
per element. -/
def vecArg {γ : Type} (elementArgs : List Unit) (a : γ) : VecBuilder (List γ) :=
  .provided (elementArgs.map fun _ => a)

/-- `VecArgsBuilder::map_arg` (`context.rs`), available only on `Provided`
states: transform each provided argument. -/
def vecMapArg {β γ : Type} (elementArgs : List β) (f : β → γ) :
    VecBuilder (List γ) :=
  .provided (elementArgs.map f)

/-- `ArgsBuilderFinished for VecArgsBuilder<Provided<Args>>` (`context.rs`,
lines 182-187): `finish` exists only on the `Provided` state; `none` models
the absence of an impl for `VecArgsBuilder<Required>`. -/
def vecFinish {β : Type} : VecBuilder β → Option β
  | .required => none
  | .provided l => some l

/-- State of `StrArgsBuilder<N>`: `N = Required` or `N = Provided<usize>`. -/
inductive StrBuilder
  | required
  | provided (count : Nat)
deriving DecidableEq

/-- `StrArgsBuilder::count` (`context.rs`, lines 210-215), available only on
the `Required` state: set the byte count. -/
def strCount (n : Nat) : StrBuilder :=
  .provided n

/-- `ArgsBuilderFinished for StrArgsBuilder<Provided<usize>>` (`context.rs`,
lines 217-220): `finish` exists only on the `Provided` state. -/
def strFinish : StrBuilder → Option Nat
  | .required => none
  | .provided n => some n

/-! Schema compiler (`bin_data_macros`).  An entry list is compiled by
`bin_data` in `lib.rs`, which emits the struct and calls `impl_decode`
(`code_gen.rs`); `impl_encode` is defined in `code_gen.rs` but never called
by the macro entry point. -/

/-- Per-field / per-record endianness configuration (the `endian = "..."`
option consumed by `decide_endian` in `code_gen.rs`). -/
inductive EndianConfig
  | noneC
  | little
  | big
  | inherit
deriving DecidableEq

/-- `decide_endian` (`code_gen.rs`, lines 81-96), as the runtime value of the
generated endianness expression.  `amb` is the value of the generated
function's `endian` variable in scope (after any record-level overwrite);
`none` stands for `NoEndian`.  A field with no local option uses
`endian.into_context()` when the record declares an endianness, `NoEndian`
otherwise; local `"none"` forces `NoEndian`; `"little"`/`"big"` are explicit;
`"inherit"` uses the in-scope `endian`. -/
def decideEndian (localE : Option EndianConfig) (globalE : EndianConfig)
    (amb : Option Endian) : Option Endian :=
  match localE with
  | none => if globalE ≠ .noneC then amb else none
  | some .noneC => none
  | some .little => some .little
  | some .big => some .big
  | some .inherit => amb

/-- A fixed-width plain-data field of a schema: byte width, the
`std::any::type_name` tag, and the optional local endian option. -/
structure PrimField where
  width : Nat
  tname : String
  localEndian : Option EndianConfig
deriving DecidableEq

/-- A schema entry of the restricted schema class: a `@magic(..)` or `@pad(..)`
directive, or a persistent plain-data field with no overrides, no argument
assignments and no temporaries. -/
inductive PlainEntry
  | magicE (bytes : List Nat)
  | padE (n : Nat)
  | fieldE (f : PrimField)
deriving DecidableEq

/-- A field entry type-checks only when its resolved endianness matches the
primitive codec's requirement `EndianContext = Endian`; an unresolved
(`NoEndian`) field is a schema-compile-time type error, so a schema containing
one is never compiled to a codec. -/
def entryResolved (globalE : EndianConfig) (amb : Option Endian) :
    PlainEntry → Bool
  | .fieldE f => (decideEndian f.localEndian globalE amb).isSome
  | _ => true

/-- The record values matching a schema: one bit pattern per field entry, in
declared order, each within the field's width. -/
def valsFit : List PlainEntry → List Nat → Bool
  | [], vs => vs.isEmpty
  | .fieldE f :: es, vs =>
    match vs with
    | [] => false
    | v :: vsRest => decide (v < 256 ^ f.width) && valsFit es vsRest
  | _ :: es, vs => valsFit es vs

/-- The decode procedure `impl_decode` generates for a restricted schema
(`code_gen.rs`, `decode_entry` / `impl_decode`): entries in declared order; a
directive becomes a stream-primitive call; a field is decoded with its
resolved endianness; the first failure propagates; the record is assembled
from the field bindings in order.  An unresolved field endianness is a
schema-compile-time error (see `entryResolved`); the `invalidData "endian"`
outcome marks that unreachable-by-compiled-code branch. -/
def recordDecode (globalE : EndianConfig) (amb : Option Endian) :
    List PlainEntry → List Nat → List Nat × Except DecodeError (List Nat)
  | [], src => (src, .ok [])
  | .magicE m :: es, src =>
    match magicRead m src with
    | (src1, .ok ()) => recordDecode globalE amb es src1
    | (src1, .error e) => (src1, .error e)
  | .padE n :: es, src =>
    match padRead n src with
    | (src1, .ok ()) => recordDecode globalE amb es src1
    | (src1, .error e) => (src1, .error e)
  | .fieldE f :: es, src =>
    match decideEndian f.localEndian globalE amb with
    | none => (src, .error (.invalidData "endian"))
    | some e =>
      match plainDecodeWith f.width f.tname e src with
      | (src1, .ok v) =>
        match recordDecode globalE amb es src1 with
        | (src2, .ok vs) => (src2, .ok (v :: vs))
        | (src2, .error err) => (src2, .error err)
      | (src1, .error err) => (src1, .error err)

/-- The encode procedure `impl_encode` generates for a restricted schema
(`code_gen.rs`, `encode_entry` / `impl_encode`): destructure the record into
its field bindings, then process entries in declared order (no temporaries and
no decode-override fields are present, so every entry is encoded); the
`invalidData` outcomes mark branches a compiled schema never reaches. -/
def recordEncode (globalE : EndianConfig) (amb : Option Endian) :
    List PlainEntry → List Nat → List Nat → List Nat × Except EncodeError Unit
  | [], _, sink => (sink, .ok ())
  | .magicE m :: es, vs, sink =>
    match magicWrite m sink with
    | (sink1, .ok ()) => recordEncode globalE amb es vs sink1
    | (sink1, .error e) => (sink1, .error e)
  | .padE n :: es, vs, sink =>
    match padWrite n sink with
    | (sink1, .ok ()) => recordEncode globalE amb es vs sink1
    | (sink1, .error e) => (sink1, .error e)
  | .fieldE f :: es, vs, sink =>
    match vs with
    | [] => (sink, .error (.invalidData "missing field value"))
    | v :: vsRest =>
      match decideEndian f.localEndian globalE amb with
      | none => (sink, .error (.invalidData "endian"))
      | some e =>
        match plainEncodeWith f.width v e sink with
        | (sink1, .ok ()) => recordEncode globalE amb es vsRest sink1
        | (sink1, .error err) => (sink1, .error err)

/-- The kinds of items the macro can contribute to its output token stream:
the struct definition (`extract_struct`), the `Context<dir::Read>` and
`Decode` impls (`impl_decode`), and the `Context<dir::Write>` and `Encode`
impls (`impl_encode`). -/
inductive GeneratedItem
  | structDef
  | contextReadImpl
  | decodeImpl
  | contextWriteImpl
  | encodeImpl
deriving DecidableEq

/-- Items emitted by `impl_decode` (`code_gen.rs`, lines 124-157). -/
def implDecodeItems : List GeneratedItem :=
  [.contextReadImpl, .decodeImpl]

/-- Items emitted by `impl_encode` (`code_gen.rs`, lines 182-236). -/
def implEncodeItems : List GeneratedItem :=
  [.contextWriteImpl, .encodeImpl]

/-- The `bin_data` macro entry point (`bin_data_macros/src/lib.rs`, lines
14-28): `extract_struct`, then `extract_args` per entry, then `impl_decode` —
and nothing else; `impl_encode` is never invoked.  The item kinds emitted do
not depend on the parsed input. -/
def binDataMacro (_entries : List PlainEntry) : List GeneratedItem :=
  [.structDef] ++ implDecodeItems

/-! Counterexample record for the round-trip claim: the expansion of
```
bin_data! {
    #[bin_data(endian = "little")]
    struct Bad {
        pub n: u32,
        #[bin_data(args:decode { count = n as usize })]
        pub xs: Vec<u8>,
    }
}
```
hand-traced through `impl_decode` and `impl_encode` (`code_gen.rs`).  Neither
field has a decode override.  Decode: `n` as `u32` little-endian, then
`Vec::<u8>::args_builder().count(n as usize)` finished into
`repeat(()).take(n)` and `Vec::<u8>::decode_with`.  Encode: `n` as `u32`
little-endian, then `xs` with the write-direction default builder
`Provided(repeat(()))`, so every element of `xs` is written. -/

/-- The persistent fields of `Bad`. -/
structure BadRec where
  n : Nat
  xs : List Nat
deriving DecidableEq

/-- Generated `Bad::decode_with` (from `impl_decode`). -/
def badDecode (src : List Nat) : List Nat × Except DecodeError BadRec :=
  match plainDecodeWith 4 "u32" .little src with
  | (src1, .ok nVal) =>
    match vecDecodeWith (fun _ s => plainDecodeWith 1 "u8" .little s)
        (List.replicate nVal ()) src1 with
    | (src2, .ok xsVal) => (src2, .ok ⟨nVal, xsVal⟩)
    | (src2, .error e) => (src2, .error e)
  | (src1, .error e) => (src1, .error e)

/-- Generated `Bad::encode_with` (from `impl_encode`). -/
def badEncode (v : BadRec) (sink : List Nat) :
    List Nat × Except EncodeError Unit :=
  match plainEncodeWith 4 v.n .little sink with
  | (sink1, .ok ()) =>
    vecEncodeRepeat (fun x _ s => plainEncodeWith 1 x .little s) v.xs sink1
  | (sink1, .error e) => (sink1, .error e)

/-- A concrete restricted schema, after the end-to-end example of the
`all_syntax_supported` test: a big-endian 8-byte field, a 1-byte field, a
little-endian (inherited) 4-byte field, 3 bytes of padding, and a 4-byte
magic. -/
def exampleEntries : List PlainEntry :=
  [ .fieldE ⟨8, "i64", some .big⟩,
    .fieldE ⟨1, "u8", none⟩,
    .fieldE ⟨4, "u32", none⟩,
    .padE 3,
    .magicE [0x12, 0x34, 0x56, 0x78] ]

/-! Helper lemmas. -/

theorem leBytes_length (w v : Nat) : (leBytes w v).length = w := by
  induction w generalizing v with
  | zero => rfl
  | succ w ih => simp [leBytes, ih]

theorem toBytes_length (w v : Nat) (e : Endian) : (toBytes w v e).length = w := by
  cases e <;> simp [toBytes, leBytes_length]

theorem fromLeBytes_leBytes (w v : Nat) (h : v < 256 ^ w) :
    fromLeBytes (leBytes w v) = v := by
  induction w generalizing v with
  | zero => simp [pow_zero, Nat.lt_one_iff] at h; simp [h, leBytes, fromLeBytes]
  | succ w ih =>
    have hdiv : v / 256 < 256 ^ w := by
      rw [Nat.div_lt_iff_lt_mul (by norm_num)]
      calc v < 256 ^ (w + 1) := h
        _ = 256 ^ w * 256 := by ring
    simp [leBytes, fromLeBytes, ih _ hdiv, Nat.mod_add_div]

theorem fromBytes_toBytes (w v : Nat) (e : Endian) (h : v < 256 ^ w) :
    fromBytes (toBytes w v e) e = v := by
  cases e <;> simp [toBytes, fromBytes, fromLeBytes_leBytes w v h]

theorem readExact_of_le {src : List Nat} {n : Nat} (h : n ≤ src.length) :
    readExact src n = some (src.take n, src.drop n) := by
  simp [readExact, h]

theorem readExact_of_lt {src : List Nat} {n : Nat} (h : src.length < n) :
    readExact src n = none := by
  simp only [readExact, ite_eq_right_iff]
  omega

theorem take_append_eq_left {α : Type} {l1 : List α} (l2 : List α) {n : Nat}
    (h : l1.length = n) : (l1 ++ l2).take n = l1 := by
  subst h; exact List.take_left _ _

theorem drop_append_eq_right {α : Type} {l1 : List α} (l2 : List α) {n : Nat}
    (h : l1.length = n) : (l1 ++ l2).drop n = l2 := by
  subst h; exact List.drop_left _ _

theorem plainDecodeWith_append (w : Nat) (tname : String) (e : Endian)
    (v : Nat) (rest : List Nat) (h : v < 256 ^ w) :
    plainDecodeWith w tname e (toBytes w v e ++ rest) = (rest, .ok v) := by
  have hlen : w ≤ (toBytes w v e ++ rest).length := by
    simp [toBytes_length]
  rw [plainDecodeWith, readExact_of_le hlen,
    take_append_eq_left rest (toBytes_length w v e),
    drop_append_eq_right rest (toBytes_length w v e)]
  simp [fromBytes_toBytes w v e h]

theorem magicRead_append (m rest : List Nat) :
    magicRead m (m ++ rest) = (rest, .ok ()) := by
  have hlen : m.length ≤ (m ++ rest).length := by simp
  rw [magicRead, readExact_of_le hlen, List.take_left, List.drop_left]
  simp

theorem padRead_append (n : Nat) (rest : List Nat) :
    padRead n (List.replicate n 0 ++ rest) = (rest, .ok ()) := by
  have hlen : n ≤ (List.replicate n 0 ++ rest).length := by simp
  rw [padRead, readExact_of_le hlen,
    drop_append_eq_right rest (List.length_replicate n 0)]

/-- C3: for an expected byte sequence `m` and a source holding at least
`m.length` bytes, `magic(m)` on read consumes exactly `m.length` bytes and
succeeds if and only if they equal `m`, otherwise failing with a
magic-mismatch error carrying the expected sequence and the bytes actually
read; on write, `magic(m)` emits exactly the bytes of `m`. -/
theorem magic_read_write_spec (m src sink : List Nat)
    (h : m.length ≤ src.length) :
    magicRead m src =
      (src.drop m.length,
        if src.take m.length = m then .ok ()
        else .error (.magicMismatch (src.take m.length) m)) ∧
    magicWrite m sink = (sink ++ m, .ok ()) := by
  refine ⟨?_, rfl⟩
  rw [magicRead, readExact_of_le h]
  by_cases hm : src.take m.length = m
  · simp [hm]
  · have : ¬ m = src.take m.length := fun hEq => hm hEq.symm
    simp [hm, this]

/-- C3 witness: a concrete 4-byte magic on an exactly matching source and on a
mismatching source, via `magic_read_write_spec`. -/
theorem magic_read_write_spec_witness :
    magicRead [0x12, 0x34, 0x56, 0x78] [0x12, 0x34, 0x56, 0x78, 0xAA] =
      ([0xAA], .ok ()) ∧
    magicRead [0x12, 0x34, 0x56, 0x78] [0x12, 0x34, 0x56, 0x79] =
      ([], .error (.magicMismatch [0x12, 0x34, 0x56, 0x79]
                     [0x12, 0x34, 0x56, 0x78])) := by
  constructor
  · have h := (magic_read_write_spec [0x12, 0x34, 0x56, 0x78]
      [0x12, 0x34, 0x56, 0x78, 0xAA] [] (by decide)).1
    simpa using h
  · have h := (magic_read_write_spec [0x12, 0x34, 0x56, 0x78]
      [0x12, 0x34, 0x56, 0x79] [] (by decide)).1
    simpa using h

/-- C10: when `magic(expected)` fails with a mismatch, the mismatching bytes
have been consumed before the comparison: the remaining source is exactly the
original source minus its first `expected.length` bytes — the position is not
restored on error. -/
theorem magic_mismatch_consumes (m src : List Nat)
    (h : m.length ≤ src.length) (hne : src.take m.length ≠ m) :
    magicRead m src =
      (src.drop m.length,
       .error (.magicMismatch (src.take m.length) m)) := by
  rw [magicRead, readExact_of_le h]
  have : ¬ m = src.take m.length := fun hEq => hne hEq.symm
  simp [this]

/-- C10 witness: a mismatching 2-byte magic leaves the source advanced past
the two consumed bytes, via `magic_mismatch_consumes`. -/
theorem magic_mismatch_consumes_witness :
    magicRead [1, 2] [9, 9, 7] =
      ([7], .error (.magicMismatch [9, 9] [1, 2])) := by
  have h := magic_mismatch_consumes [1, 2] [9, 9, 7] (by decide) (by decide)
  simpa using h

/-- C4: `pad(n)` on read consumes and discards exactly `n` bytes whatever
their content, failing with an incomplete-data error exactly when fewer than
`n` bytes remain (and then consuming nothing, as the byte-slice
`read_exact` does); on write it emits exactly `n` zero bytes. -/
theorem pad_spec (n : Nat) (src sink : List Nat) :
    (n ≤ src.length → padRead n src = (src.drop n, .ok ())) ∧
    (src.length < n →
      padRead n src = (src, .error (.incompleteData "padding"))) ∧
    padWrite n sink = (sink ++ List.replicate n 0, .ok ()) := by
  refine ⟨fun h => ?_, fun h => ?_, rfl⟩
  · rw [padRead, readExact_of_le h]
  · rw [padRead, readExact_of_lt h]

/-- C4 witness: `pad(3)` on a 5-byte source and on a short source, via
`pad_spec`. -/
theorem pad_spec_witness :
    padRead 3 [10, 20, 30, 40, 50] = ([40, 50], .ok ()) ∧
    padRead 3 [10] = ([10], .error (.incompleteData "padding")) ∧
    padWrite 3 [7] = ([7, 0, 0, 0], .ok ()) := by
  refine ⟨?_, ?_, (pad_spec 3 [] [7]).2.2⟩
  · have h := (pad_spec 3 [10, 20, 30, 40, 50] []).1 (by decide)
    simpa using h
  · have h := (pad_spec 3 [10] []).2.1 (by decide)
    simpa using h

/-- C5: a `w`-byte numeric decode reads exactly `w` bytes and reinterprets
them with the given byte order, and encode writes exactly the `w` bytes of the
value in that order; encoding the two-byte value `0x1234` little-endian yields
`[0x34, 0x12]` and big-endian `[0x12, 0x34]`. -/
theorem plain_data_spec (w : Nat) (tname : String) (endian : Endian) (v : Nat)
    (src sink : List Nat) :
    (w ≤ src.length →
      plainDecodeWith w tname endian src =
        (src.drop w, .ok (fromBytes (src.take w) endian))) ∧
    plainEncodeWith w v endian sink = (sink ++ toBytes w v endian, .ok ()) ∧
    (toBytes w v endian).length = w ∧
    toBytes 2 0x1234 .little = [0x34, 0x12] ∧
    toBytes 2 0x1234 .big = [0x12, 0x34] := by
    refine ⟨fun h => ?_, rfl, toBytes_length w v endian, by decide, by decide⟩
    rw [plainDecodeWith, readExact_of_le h]

/-- C5 witness: decoding `0x1234` back from its two little-endian bytes, via
`plain_data_spec`. -/
theorem plain_data_spec_witness :
    plainDecodeWith 2 "u16" .little [0x34, 0x12, 0xFF] =
      ([0xFF], .ok 0x1234) := by
  have h := (plain_data_spec 2 "u16" .little 0 [0x34, 0x12, 0xFF] []).1
    (by decide)
  simpa using h

/-- C9: `finish` succeeds exactly on the builder states whose every required
parameter is set — the `Provided` states of `VecArgsBuilder` and
`StrArgsBuilder` — and on no state with an unset required parameter; the
setters `count` produce finished-able states. -/
theorem args_builder_finish_iff {β : Type} (b : VecBuilder β)
    (sb : StrBuilder) :
    ((vecFinish b).isSome ↔ ∃ l, b = .provided l) ∧
    ((strFinish sb).isSome ↔ ∃ n, sb = .provided n) ∧
    vecFinish (VecBuilder.required : VecBuilder β) = none ∧
    strFinish .required = none ∧
    (∀ n, strFinish (strCount n) = some n) ∧
    (∀ n, vecFinish (vecCount n) = some (List.replicate n ())) := by
  refine ⟨?_, ?_, rfl, rfl, fun n => rfl, fun n => rfl⟩
  · cases b <;> simp [vecFinish]
  · cases sb <;> simp [strFinish]

/-- C2 (code bug): the macro entry point emits the struct and the
`Context<dir::Read>`/`Decode` impls, and never the
`Context<dir::Write>`/`Encode` impls, although `impl_encode` exists and would
emit them — evaluated on the example schema. -/
theorem bin_data_macro_emits_no_encode :
    GeneratedItem.encodeImpl ∉ binDataMacro exampleEntries ∧
    GeneratedItem.decodeImpl ∈ binDataMacro exampleEntries ∧
    GeneratedItem.encodeImpl ∈ implEncodeItems := by
  decide

/-- C1 counterexample: for the record `Bad` (a `u32` count field `n` and a
byte sequence `xs` decoded with `count = n`, no decode-override on any field),
the value `{ n := 0, xs := [1] }` does not round-trip: encode writes the
stored count `0` followed by all of `xs`, decode then reads back an empty
sequence. -/
theorem roundtrip_fails_on_bad :
    (badDecode (badEncode ⟨0, [1]⟩ []).1).2 ≠ .ok (⟨0, [1]⟩ : BadRec) ∧
    (badDecode (badEncode ⟨0, [1]⟩ []).1).2 = .ok (⟨0, []⟩ : BadRec) := by
  refine ⟨fun h => ?_, rfl⟩
  have h2 : (⟨0, []⟩ : BadRec) = ⟨0, [1]⟩ := Except.ok.inj h
  simp at h2

/-- Round-trip across one schema, with the output sink and trailing stream
generalised: encoding appends some byte string to the sink, and decoding that
byte string in front of any continuation restores exactly the encoded values
and leaves the continuation. -/
theorem recordEncode_decode_aux (globalE : EndianConfig) (amb : Option Endian)
    (es : List PlainEntry) :
    ∀ vs sink rest,
      (∀ e ∈ es, entryResolved globalE amb e = true) →
      valsFit es vs = true →
      ∃ out, recordEncode globalE amb es vs sink = (sink ++ out, .ok ()) ∧
        recordDecode globalE amb es (out ++ rest) = (rest, .ok vs) := by
  induction es with
  | nil =>
    intro vs sink rest _ hfit
    refine ⟨[], ?_, ?_⟩
    · simp [recordEncode]
    · have : vs = [] := by simpa [valsFit, List.isEmpty_iff] using hfit
      simp [this, recordDecode]
  | cons e es ih =>
    intro vs sink rest hres hfit
    match e with
    | .magicE m =>
      obtain ⟨out, henc, hdec⟩ := ih vs (sink ++ m) rest
        (fun x hx => hres x (List.mem_cons_of_mem _ hx)) hfit
      refine ⟨m ++ out, ?_, ?_⟩
      · simp [recordEncode, magicWrite, henc]
      · simp [recordDecode, List.append_assoc, magicRead_append, hdec]
    | .padE n =>
      obtain ⟨out, henc, hdec⟩ := ih vs (sink ++ List.replicate n 0) rest
        (fun x hx => hres x (List.mem_cons_of_mem _ hx)) hfit
      refine ⟨List.replicate n 0 ++ out, ?_, ?_⟩
      · simp [recordEncode, padWrite, henc]
      · simp [recordDecode, List.append_assoc, padRead_append, hdec]
    | .fieldE f =>
      match vs with
      | [] => simp [valsFit] at hfit
      | v :: vsRest =>
        have hv : v < 256 ^ f.width := by
          simp [valsFit] at hfit; exact hfit.1
        have hfit2 : valsFit es vsRest = true := by
          simp [valsFit] at hfit; exact hfit.2
        have hr : (decideEndian f.localEndian globalE amb).isSome = true :=
          hres _ (List.mem_cons_self _ _)
        obtain ⟨en, hen⟩ := Option.isSome_iff_exists.mp hr
        obtain ⟨out, henc, hdec⟩ := ih vsRest
          (sink ++ toBytes f.width v en) rest
          (fun x hx => hres x (List.mem_cons_of_mem _ hx)) hfit2
        refine ⟨toBytes f.width v en ++ out, ?_, ?_⟩
        · simp [recordEncode, hen, plainEncodeWith, henc]
        · simp [recordDecode, hen, List.append_assoc,
            plainDecodeWith_append f.width f.tname en v (out ++ rest) hv, hdec]

/-- C1 (amended): for every restricted schema — fixed-width plain-data fields
plus magic and pad directives, no decode or encode overrides, no temporaries,
no argument assignments — whose every field's endianness resolves, and every
matching record value, the generated encode succeeds and the generated decode
of the encoded bytes returns exactly the original field values, consuming the
whole encoding. -/
theorem plain_schema_roundtrip (globalE : EndianConfig) (amb : Option Endian)
    (es : List PlainEntry) (vs : List Nat)
    (hres : ∀ e ∈ es, entryResolved globalE amb e = true)
    (hfit : valsFit es vs = true) :
    (recordEncode globalE amb es vs []).2 = .ok () ∧
    recordDecode globalE amb es (recordEncode globalE amb es vs []).1 =
      ([], .ok vs) := by
  obtain ⟨out, henc, hdec⟩ := recordEncode_decode_aux globalE amb es vs [] []
    hres hfit
  rw [henc]
  simpa using hdec

/-- C1 witness: the example schema (big-endian `i64`, `u8`, inherited
little-endian `u32`, 3 padding bytes, 4-byte magic) round-trips the record of
the end-to-end scenario, via `plain_schema_roundtrip`. -/
theorem plain_schema_roundtrip_witness :
    recordDecode .little (some .little) exampleEntries
        (recordEncode .little (some .little) exampleEntries
          [0x1122334455667788, 42, 0xDEADBEEF] []).1 =
      ([], .ok [0x1122334455667788, 42, 0xDEADBEEF]) := by
  exact (plain_schema_roundtrip .little (some .little) exampleEntries
    [0x1122334455667788, 42, 0xDEADBEEF] (by decide) (by decide)).2

/-- C6: encoding a sequence of `k` elements with a finished argument sequence
of only `j < k` per-element parameters fails with
`InvalidArgument("Vec", "not enough arguments")` — the container's type tag —
after writing exactly the encodings of the first `j` elements, which is `j`
elements' worth (`j * w` bytes for `w`-byte plain-data elements). -/
theorem vec_encode_args_exhausted (w : Nat) (endian : Endian)
    (elems : List Nat) (argsL : List Unit) (sink : List Nat)
    (h : argsL.length < elems.length) :
    vecEncodeWith (fun x _ s => plainEncodeWith w x endian s)
        elems argsL sink =
      (sink ++ ((elems.take argsL.length).map
          (fun v => toBytes w v endian)).flatten,
       .error (.invalidArgument "Vec" "not enough arguments")) ∧
    (((elems.take argsL.length).map
        (fun v => toBytes w v endian)).flatten).length
      = argsL.length * w := by
  induction argsL generalizing elems sink with
  | nil =>
    match elems with
    | [] => simp at h
    | x :: xs =>
      refine ⟨?_, by simp⟩
      simp [vecEncodeWith, encodeIter]
  | cons a argsRest ih =>
    match elems with
    | [] => simp at h
    | x :: xs =>
      have h2 : argsRest.length < xs.length := by
        simpa using h
      obtain ⟨ihEq, ihLen⟩ := ih xs (sink ++ toBytes w x endian) h2
      constructor
      · simp only [vecEncodeWith, encodeIter, plainEncodeWith] at ihEq ⊢
        rw [ihEq]
        simp [toBytes_length]
      · simp only [List.length_cons, List.take_succ_cons, List.map_cons,
          List.flatten_cons, List.length_append, ihLen, toBytes_length]
        ring

/-- C6 witness: three one-byte elements with two supplied arguments, via
`vec_encode_args_exhausted`; exactly the first two elements' bytes are
written. -/
theorem vec_encode_args_exhausted_witness :
    vecEncodeWith (fun x _ s => plainEncodeWith 1 x .little s)
        [5, 6, 7] [(), ()] [] =
      ([5, 6], .error (.invalidArgument "Vec" "not enough arguments")) := by
  have h := (vec_encode_args_exhausted 1 .little [5, 6, 7] [(), ()] []
    (by decide)).1
  simpa [toBytes, leBytes] using h

/-- C7: decoding a growable sequence with `n` supplied per-element parameters
pulls exactly one parameter per element, decodes the `n` elements in order
(the `i`-th from the `i`-th `w`-byte chunk of the stream) and collects them in
order, consuming `n * w` bytes; when the stream is too short, the first
element decode that fails aborts the whole container decode with exactly that
element's failure, and no partial sequence is returned (the outcome is the
element's error, not a value). -/
theorem vec_decode_spec (w : Nat) (tname : String) (endian : Endian)
    (n : Nat) (src : List Nat) :
    (n * w ≤ src.length →
      vecDecodeWith (fun _ s => plainDecodeWith w tname endian s)
          (List.replicate n ()) src =
        (src.drop (n * w),
         .ok ((List.range n).map
           fun i => fromBytes ((src.drop (i * w)).take w) endian))) ∧
    (src.length < n * w →
      vecDecodeWith (fun _ s => plainDecodeWith w tname endian s)
          (List.replicate n ()) src =
        (src.drop (src.length / w * w),
         .error (.incompleteData tname))) := by
  induction n generalizing src with
  | zero => exact ⟨fun _ => by simp [vecDecodeWith], fun h => by omega⟩
  | succ n ih =>
    constructor
    · intro h
      rw [Nat.succ_mul] at h
      have hw : w ≤ src.length := by omega
      have hrec : n * w ≤ (src.drop w).length := by
        simp only [List.length_drop]
        omega
      obtain ⟨ihOk, _⟩ := ih (src.drop w)
      have step : plainDecodeWith w tname endian src =
          (src.drop w, .ok (fromBytes (src.take w) endian)) := by
        rw [plainDecodeWith, readExact_of_le hw]
      have hdrop : List.drop (n * w) (List.drop w src) =
          List.drop ((n + 1) * w) src := by
        rw [List.drop_drop]
        congr 1
        ring
      have hmap : ((List.range (n + 1)).map
            fun i => fromBytes ((src.drop (i * w)).take w) endian) =
          fromBytes (src.take w) endian ::
            ((List.range n).map
              fun i => fromBytes (((src.drop w).drop (i * w)).take w)
                endian) := by
        rw [List.range_succ_eq_map, List.map_cons, List.map_map]
        refine congrArg₂ List.cons (by simp) ?_
        refine List.map_congr_left fun i _ => ?_
        rw [List.drop_drop]
        simp [Function.comp, Nat.succ_mul, Nat.add_comm]
      simp only [List.replicate_succ, vecDecodeWith, step, ihOk hrec,
        hdrop, hmap]
    · intro h
      rw [Nat.succ_mul] at h
      by_cases hw : w ≤ src.length
      · have hwpos : 0 < w := by
          rcases Nat.eq_zero_or_pos w with h0 | h0
          · subst h0; simp at h
          · exact h0
        have hrec : (src.drop w).length < n * w := by
          simp only [List.length_drop]
          omega
        obtain ⟨_, ihErr⟩ := ih (src.drop w)
        have step : plainDecodeWith w tname endian src =
            (src.drop w, .ok (fromBytes (src.take w) endian)) := by
          rw [plainDecodeWith, readExact_of_le hw]
        have hdiv : src.length / w = (src.length - w) / w + 1 :=
          Nat.div_eq_sub_div hwpos hw
        have hdrop : List.drop ((List.drop w src).length / w * w)
              (List.drop w src) =
            List.drop (src.length / w * w) src := by
          rw [List.drop_drop]
          simp only [List.length_drop, hdiv]
          congr 1
          ring
        simp only [List.replicate_succ, vecDecodeWith, step, ihErr hrec,
          hdrop]
      · have step : plainDecodeWith w tname endian src =
            (src, .error (.incompleteData tname)) := by
          rw [plainDecodeWith, readExact_of_lt (by omega)]
        have hdiv : src.length / w = 0 := by
          apply Nat.div_eq_of_lt
          omega
        simp [List.replicate_succ, vecDecodeWith, step, hdiv]

/-- C7 witness: decoding two 2-byte little-endian elements from a 5-byte
stream, and the abort with the element's incomplete-data failure on a 3-byte
stream, via `vec_decode_spec`. -/
theorem vec_decode_spec_witness :
    vecDecodeWith (fun _ s => plainDecodeWith 2 "u16" .little s)
        (List.replicate 2 ()) [1, 0, 2, 0, 9] =
      ([9], .ok [1, 2]) ∧
    vecDecodeWith (fun _ s => plainDecodeWith 2 "u16" .little s)
        (List.replicate 2 ()) [1, 0, 2] =
      ([2], .error (.incompleteData "u16")) := by
  constructor
  · have h := (vec_decode_spec 2 "u16" .little 2 [1, 0, 2, 0, 9]).1
      (by decide)
    simpa [fromBytes, fromLeBytes] using h
  · have h := (vec_decode_spec 2 "u16" .little 2 [1, 0, 2]).2 (by decide)
    simpa using h

/-! Lemmas about the UTF-8 validator. -/

set_option maxHeartbeats 1600000 in
theorem checkSeq_ok_iff (b : Nat) (c1 c2 c3 : Option Nat) (n : Nat) :
    checkSeq b c1 c2 c3 = .ok n ↔
      ((n = 1 ∧ b < 0x80) ∨
       (n = 2 ∧ 0xC2 ≤ b ∧ b < 0xE0 ∧
         ∃ c, c1 = some c ∧ 0x80 ≤ c ∧ c < 0xC0) ∨
       (n = 3 ∧ 0xE0 ≤ b ∧ b < 0xF0 ∧
         ∃ c d, c1 = some c ∧ c2 = some d ∧
           ((b = 0xE0 ∧ 0xA0 ≤ c ∧ c < 0xC0) ∨
            (0xE1 ≤ b ∧ b ≤ 0xEC ∧ 0x80 ≤ c ∧ c < 0xC0) ∨
            (b = 0xED ∧ 0x80 ≤ c ∧ c < 0xA0) ∨
            (0xEE ≤ b ∧ 0x80 ≤ c ∧ c < 0xC0)) ∧
           0x80 ≤ d ∧ d < 0xC0) ∨
       (n = 4 ∧ 0xF0 ≤ b ∧ b < 0xF5 ∧
         ∃ c d e, c1 = some c ∧ c2 = some d ∧ c3 = some e ∧
           ((b = 0xF0 ∧ 0x90 ≤ c ∧ c < 0xC0) ∨
            (0xF1 ≤ b ∧ b ≤ 0xF3 ∧ 0x80 ≤ c ∧ c < 0xC0) ∨
            (b = 0xF4 ∧ 0x80 ≤ c ∧ c < 0x90)) ∧
           0x80 ≤ d ∧ d < 0xC0 ∧ 0x80 ≤ e ∧ e < 0xC0)) := by
  constructor
  · intro h
    rcases c1 with _ | c <;> rcases c2 with _ | d <;> rcases c3 with _ | e <;>
      simp only [checkSeq] at h <;>
      split_ifs at h <;> simp at h <;> simp <;> omega
  · intro h
    rcases h with ⟨hn, hb⟩ |
      ⟨hn, hb1, hb2, c, hc, hc1, hc2⟩ |
      ⟨hn, hb1, hb2, c, d, hc, hd, hcond, hd1, hd2⟩ |
      ⟨hn, hb1, hb2, c, d, e, hc, hd, he, hcond, hd1, hd2, he1, he2⟩
    · subst hn
      simp only [checkSeq]
      split_ifs <;> first | rfl | omega
    · subst hn
      subst hc
      simp only [checkSeq]
      split_ifs <;> first | rfl | omega
    · subst hn
      subst hc
      subst hd
      simp only [checkSeq]
      split_ifs <;> first | rfl | omega
    · subst hn
      subst hc
      subst hd
      subst he
      simp only [checkSeq]
      split_ifs <;> first | rfl | omega

theorem getElem?_some_lt {l : List Nat} {j c : Nat} (h : l[j]? = some c) :
    j < l.length := by
  by_contra hc
  rw [List.getElem?_eq_none (by omega)] at h
  cases h

theorem take_getElem?_some {l : List Nat} {m j c : Nat}
    (h : (l.take m)[j]? = some c) : j < m ∧ l[j]? = some c := by
  rw [List.getElem?_take] at h
  by_cases hj : j < m
  · rw [if_pos hj] at h
    exact ⟨hj, h⟩
  · rw [if_neg hj] at h
    cases h

/-- Classifying the first sequence of a truncated continuation list succeeds
only if classifying against the full list succeeds with the same length, and
the whole sequence fits in the truncation. -/
theorem checkSeq_take_ok {b : Nat} {rest : List Nat} {m n : Nat}
    (h : checkSeq b (rest.take m)[0]? (rest.take m)[1]? (rest.take m)[2]? =
      .ok n) :
    checkSeq b rest[0]? rest[1]? rest[2]? = .ok n ∧ n ≤ m + 1 := by
  rw [checkSeq_ok_iff] at h ⊢
  rcases h with ⟨hn, hb⟩ |
    ⟨hn, hb1, hb2, c, hc, hc1, hc2⟩ |
    ⟨hn, hb1, hb2, c, d, hc, hd, hcond, hd1, hd2⟩ |
    ⟨hn, hb1, hb2, c, d, e, hc, hd, he, hcond, hd1, hd2, he1, he2⟩
  · exact ⟨Or.inl ⟨hn, hb⟩, by omega⟩
  · obtain ⟨hcm, hc'⟩ := take_getElem?_some hc
    exact ⟨Or.inr (Or.inl ⟨hn, hb1, hb2, c, hc', hc1, hc2⟩), by omega⟩
  · obtain ⟨hcm, hc'⟩ := take_getElem?_some hc
    obtain ⟨hdm, hd'⟩ := take_getElem?_some hd
    exact ⟨Or.inr (Or.inr (Or.inl ⟨hn, hb1, hb2, c, d, hc', hd', hcond,
      hd1, hd2⟩)), by omega⟩
  · obtain ⟨hcm, hc'⟩ := take_getElem?_some hc
    obtain ⟨hdm, hd'⟩ := take_getElem?_some hd
    obtain ⟨hem, he'⟩ := take_getElem?_some he
    exact ⟨Or.inr (Or.inr (Or.inr ⟨hn, hb1, hb2, c, d, e, hc', hd', he',
      hcond, hd1, hd2, he1, he2⟩)), by omega⟩

/-- Classifying the first sequence only inspects its own `n - 1` continuation
bytes, so it is stable under truncation keeping at least `n - 1` bytes. -/
theorem checkSeq_ok_take {b : Nat} {rest : List Nat} {m n : Nat}
    (h : checkSeq b rest[0]? rest[1]? rest[2]? = .ok n) (hm : n - 1 ≤ m) :
    checkSeq b (rest.take m)[0]? (rest.take m)[1]? (rest.take m)[2]? =
      .ok n := by
  rw [checkSeq_ok_iff] at h ⊢
  rcases h with ⟨hn, hb⟩ |
    ⟨hn, hb1, hb2, c, hc, hc1, hc2⟩ |
    ⟨hn, hb1, hb2, c, d, hc, hd, hcond, hd1, hd2⟩ |
    ⟨hn, hb1, hb2, c, d, e, hc, hd, he, hcond, hd1, hd2, he1, he2⟩
  · exact Or.inl ⟨hn, hb⟩
  · refine Or.inr (Or.inl ⟨hn, hb1, hb2, c, ?_, hc1, hc2⟩)
    rw [List.getElem?_take, if_pos (by omega)]
    exact hc
  · refine Or.inr (Or.inr (Or.inl ⟨hn, hb1, hb2, c, d, ?_, ?_, hcond,
      hd1, hd2⟩)) <;>
      rw [List.getElem?_take, if_pos (by omega)]
    · exact hc
    · exact hd
  · refine Or.inr (Or.inr (Or.inr ⟨hn, hb1, hb2, c, d, e, ?_, ?_, ?_,
      hcond, hd1, hd2, he1, he2⟩)) <;>
      rw [List.getElem?_take, if_pos (by omega)]
    · exact hc
    · exact hd
    · exact he

/-- A successful classification fits within the list. -/
theorem checkSeq_ok_le_len {b : Nat} {rest : List Nat} {n : Nat}
    (h : checkSeq b rest[0]? rest[1]? rest[2]? = .ok n) :
    n ≤ rest.length + 1 := by
  rw [checkSeq_ok_iff] at h
  rcases h with ⟨hn, _⟩ | ⟨hn, _, _, c, hc, _⟩ |
    ⟨hn, _, _, c, d, hc, hd, _⟩ | ⟨hn, _, _, c, d, e, hc, hd, he, _⟩
  · omega
  · have := getElem?_some_lt hc
    omega
  · have := getElem?_some_lt hd
    omega
  · have := getElem?_some_lt he
    omega

/-- Step equation of the loop: a successful first-sequence classification
advances by the sequence length. -/
theorem utf8Validate_cons_ok {b : Nat} {rest : List Nat} {i n : Nat}
    (hc : checkSeq b rest[0]? rest[1]? rest[2]? = .ok n) :
    utf8Validate (b :: rest) i = utf8Validate (rest.drop (n - 1)) (i + n) := by
  rw [utf8Validate, hc]

/-- Step equation of the loop: a failed first-sequence classification reports
the current position. -/
theorem utf8Validate_cons_err {b : Nat} {rest : List Nat} {i : Nat}
    {el : Option Nat}
    (hc : checkSeq b rest[0]? rest[1]? rest[2]? = .error el) :
    utf8Validate (b :: rest) i = .err i el := by
  rw [utf8Validate, hc]

/-- The position accumulator of the validation loop only offsets the reported
`valid_up_to`. -/
theorem utf8Validate_shift_aux :
    ∀ (fuel : Nat) (l : List Nat), l.length ≤ fuel → ∀ (i : Nat),
      utf8Validate l i =
        match utf8Validate l 0 with
        | .ok => .ok
        | .err v el => .err (i + v) el := by
  intro fuel
  induction fuel with
  | zero =>
    intro l hl i
    have hnil : l = [] := List.eq_nil_of_length_eq_zero (by omega)
    subst hnil
    simp [utf8Validate]
  | succ fuel ih =>
    intro l hl i
    match l with
    | [] => simp [utf8Validate]
    | b :: rest =>
      cases hc : checkSeq b rest[0]? rest[1]? rest[2]? with
      | error el =>
        rw [utf8Validate_cons_err hc, utf8Validate_cons_err hc]
        simp
      | ok n0 =>
        have hlen : (rest.drop (n0 - 1)).length ≤ fuel := by
          simp only [List.length_cons] at hl
          simp only [List.length_drop]
          omega
        rw [utf8Validate_cons_ok hc]
        conv_rhs => rw [utf8Validate_cons_ok hc]
        rw [ih _ hlen (i + n0), ih _ hlen (0 + n0)]
        cases utf8Validate (rest.drop (n0 - 1)) 0 <;> simp [Nat.add_assoc]

theorem utf8Validate_shift (l : List Nat) (i : Nat) :
    utf8Validate l i =
      match utf8Validate l 0 with
      | .ok => .ok
      | .err v el => .err (i + v) el :=
  utf8Validate_shift_aux l.length l le_rfl i

/-- The reported `valid_up_to` is within the input, the prefix it delimits is
valid, and it is the longest valid prefix: no strictly longer prefix
validates. -/
theorem utf8_err_spec_aux :
    ∀ (fuel : Nat) (l : List Nat), l.length ≤ fuel → ∀ (v : Nat)
      (el : Option Nat), utf8Validate l 0 = .err v el →
      v ≤ l.length ∧ utf8Validate (l.take v) 0 = .ok ∧
        ∀ k, utf8Validate (l.take k) 0 = .ok → k ≤ v := by
  intro fuel
  induction fuel with
  | zero =>
    intro l hl v el herr
    have hnil : l = [] := List.eq_nil_of_length_eq_zero (by omega)
    subst hnil
    simp [utf8Validate] at herr
  | succ fuel ih =>
    intro l hl v el herr
    match l with
    | [] => simp [utf8Validate] at herr
    | b :: rest =>
      cases hc : checkSeq b rest[0]? rest[1]? rest[2]? with
      | error el0 =>
        rw [utf8Validate_cons_err hc] at herr
        obtain ⟨hv, hel⟩ : 0 = v ∧ el0 = el := by
          cases herr; exact ⟨rfl, rfl⟩
        subst hv
        refine ⟨by omega, by simp [utf8Validate], ?_⟩
        intro k hk
        match k with
        | 0 => omega
        | k1 + 1 =>
          exfalso
          rw [List.take_succ_cons] at hk
          cases hc2 : checkSeq b (rest.take k1)[0]? (rest.take k1)[1]?
              (rest.take k1)[2]? with
          | error el2 => rw [utf8Validate_cons_err hc2] at hk; cases hk
          | ok n2 =>
            have := (checkSeq_take_ok hc2).1
            rw [hc] at this
            cases this
      | ok n0 =>
        rw [utf8Validate_cons_ok hc] at herr
        have hn0len : n0 ≤ rest.length + 1 := checkSeq_ok_le_len hc
        have hn0pos : 1 ≤ n0 := by
          rw [checkSeq_ok_iff] at hc
          rcases hc with ⟨hn, _⟩ | ⟨hn, _⟩ | ⟨hn, _⟩ | ⟨hn, _⟩ <;> omega
        rw [utf8Validate_shift] at herr
        cases hrec : utf8Validate (rest.drop (n0 - 1)) 0 with
        | ok => rw [hrec] at herr; simp at herr
        | err v1 el1 =>
          rw [hrec] at herr
          simp only [Utf8Out.err.injEq] at herr
          obtain ⟨hv, hel⟩ := herr
          obtain ⟨ihLe, ihOk, ihMax⟩ := ih (rest.drop (n0 - 1))
            (by simp only [List.length_cons] at hl;
                simp only [List.length_drop]; omega) v1 el1 hrec
          have hvIs : v = n0 + v1 := by omega
          refine ⟨?_, ?_, ?_⟩
          · simp only [List.length_cons]
            simp only [List.length_drop] at ihLe
            omega
          · have hvpos : 1 ≤ v := by omega
            obtain ⟨v2, hv2⟩ : ∃ v2, v = v2 + 1 := ⟨v - 1, by omega⟩
            rw [hv2, List.take_succ_cons]
            have hstep : checkSeq b (rest.take v2)[0]? (rest.take v2)[1]?
                (rest.take v2)[2]? = .ok n0 :=
              checkSeq_ok_take hc (by omega)
            rw [utf8Validate_cons_ok hstep, List.drop_take,
              utf8Validate_shift]
            have hsub : v2 - (n0 - 1) = v1 := by omega
            rw [hsub, ihOk]
          · intro k hk
            match k with
            | 0 => omega
            | k1 + 1 =>
              rw [List.take_succ_cons] at hk
              cases hc2 : checkSeq b (rest.take k1)[0]? (rest.take k1)[1]?
                  (rest.take k1)[2]? with
              | error el2 => rw [utf8Validate_cons_err hc2] at hk; cases hk
              | ok n2 =>
                obtain ⟨hfull, hn2le⟩ := checkSeq_take_ok hc2
                have hn2 : Except.ok (ε := Option Nat) n0 = .ok n2 :=
                  hc.symm.trans hfull
                cases hn2
                rw [utf8Validate_cons_ok hc2, List.drop_take,
                  utf8Validate_shift] at hk
                cases hk2 : utf8Validate ((rest.drop (n0 - 1)).take
                    (k1 - (n0 - 1))) 0 with
                | ok =>
                  have := ihMax _ hk2
                  omega
                | err v3 el3 => rw [hk2] at hk; simp at hk

/-- C8: text decode reads exactly `count` bytes (the remaining stream is the
source minus its first `count` bytes, validation outcome notwithstanding) and
validates them as UTF-8; on success the bytes are returned unchanged, and on
failure the outcome is an error — never a replaced or truncated value — whose
two separate components are the longest valid UTF-8 prefix (valid, and no
strictly longer prefix validates) and the invalid byte span following it. -/
theorem string_decode_spec (count : Nat) (src : List Nat)
    (h : count ≤ src.length) :
    (stringDecodeWith count src).1 = src.drop count ∧
    (utf8Validate (src.take count) 0 = .ok →
      (stringDecodeWith count src).2 = .ok (src.take count)) ∧
    ∀ v el, utf8Validate (src.take count) 0 = .err v el →
      (stringDecodeWith count src).2 =
        .error (.decodeUtf8Error ((src.take count).take v)
          (((src.take count).take (v + el.getD 0)).drop v)) ∧
      utf8Validate ((src.take count).take v) 0 = .ok ∧
      ∀ k, utf8Validate ((src.take count).take k) 0 = .ok → k ≤ v := by
  have hre : readExact src count = some (src.take count, src.drop count) :=
    readExact_of_le h
  refine ⟨?_, ?_, ?_⟩
  · simp only [stringDecodeWith, hre]
    cases utf8Validate (src.take count) 0 <;> rfl
  · intro hok
    simp only [stringDecodeWith, hre, hok]
  · intro v el herr
    have hspec := utf8_err_spec_aux (src.take count).length (src.take count)
      le_rfl v el herr
    refine ⟨?_, hspec.2.1, hspec.2.2⟩
    simp only [stringDecodeWith, hre, herr, utf8ErrorToDecodeError]

/-- C8 witness: decoding 3 bytes `[0x41, 0xC3, 0x28]` (an `A` followed by a
dangling 2-byte lead) consumes exactly 3 bytes and fails with valid prefix
`[0x41]` and invalid span `[0xC3]`, via `string_decode_spec`. -/
theorem string_decode_spec_witness :
    (stringDecodeWith 3 [0x41, 0xC3, 0x28, 0x99]).1 = [0x99] ∧
    (stringDecodeWith 3 [0x41, 0xC3, 0x28, 0x99]).2 =
      .error (.decodeUtf8Error [0x41] [0xC3]) := by
  have hval : utf8Validate (([0x41, 0xC3, 0x28, 0x99] : List Nat).take 3) 0 =
      .err 1 (some 1) := by
    simp [utf8Validate, checkSeq]
  have hs := string_decode_spec 3 [0x41, 0xC3, 0x28, 0x99] (by simp)
  refine ⟨by simpa using hs.1, ?_⟩
  have h3 := (hs.2.2 1 (some 1) hval).1
  simpa using h3

end BinData
